import Mathlib

/-!
Shallow embedding of the asynchronous task-orchestration engine of
`src/neo4j_genai/experimental/pipeline/pipeline.py`.

Pure parts of the Python code become Lean functions; stateful code is
modelled by explicit state passing; fallible code returns `Except`.
The modules `pipeline_graph.py`, `stores.py` and `component.py` are not
part of the sources; the few operations of theirs that `pipeline.py`
calls (`add_edge`, `is_cyclic`, `is_leaf`, `previous_edges`,
`next_edges`, the in-memory store) are modelled from the specification
and are marked `Modelled from the spec:` in their doc comments.
-/

namespace PipelineSpec

/-- `RunStatus` enum of pipeline.py. -/
inductive RunStatus where
  | UNKNOWN
  | SCHEDULED
  | WAITING
  | RUNNING
  | SKIP
  | DONE
deriving DecidableEq, Repr, Fintype

/-- The exception kinds raised by the embedded code.
`definition` embeds `PipelineDefinitionError`, `missingDependency`
embeds `PipelineMissingDependencyError`, `statusUpdate` embeds
`PipelineStatusUpdateError`; `keyError` and `attributeError` embed the
corresponding Python built-in exceptions. -/
inductive PipelineError where
  | statusUpdate
  | missingDependency
  | definition (msg : String)
  | keyError (key : String)
  | attributeError
deriving DecidableEq, Repr

instance {ε α : Type} [DecidableEq ε] [DecidableEq α] : DecidableEq (Except ε α) :=
  fun a b =>
    match a, b with
    | .error e1, .error e2 =>
        if h : e1 = e2 then .isTrue (by rw [h])
        else .isFalse (fun hh => h (by cases hh; rfl))
    | .ok v1, .ok v2 =>
        if h : v1 = v2 then .isTrue (by rw [h])
        else .isFalse (fun hh => h (by cases hh; rfl))
    | .error _, .ok _ => .isFalse (fun hh => by cases hh)
    | .ok _, .error _ => .isFalse (fun hh => by cases hh)

/-- Model of a scalar JSON-like value appearing in component results. -/
inductive FlatValue where
  | vnone
  | vnat (n : Nat)
  | vstr (s : String)
  | vbool (b : Bool)
deriving DecidableEq, Repr

/-- A component result after `model_dump()`: a Python dict from field
name to value, modelled as an insertion-ordered association list. -/
abbrev Dict := List (String × FlatValue)

/-- A value fed to a component as input: either a scalar or a whole
result dict (the latter arises when an edge maps a bare component
reference, in which case the full stored result is passed on). -/
inductive Value where
  | flat (v : FlatValue)
  | dict (d : Dict)
deriving DecidableEq, Repr

/-- The per-component input dict (`component_inputs` in
`get_component_inputs`). -/
abbrev InputDict := List (String × Value)

/-- The user-supplied `data` argument of `Pipeline.run`:
component name to that component's input dict. -/
abbrev InputData := List (String × InputDict)

/-! ### Python-dict operations on association lists -/

/-- `d.get(k)` / `d[k]` lookup on a Python dict. -/
def alGet {α : Type} : List (String × α) → String → Option α
  | [], _ => none
  | (k', v) :: t, k => if k' = k then some v else alGet t k

/-- `d[k] = v` on a Python dict: overwrite in place, keeping the key's
position, or append the new key at the end. -/
def alInsert {α : Type} : List (String × α) → String → α → List (String × α)
  | [], k, v => [(k, v)]
  | (k', v') :: t, k, v => if k' = k then (k, v) :: t else (k', v') :: alInsert t k v

/-- `list(d.keys())`. -/
def alKeys {α : Type} (l : List (String × α)) : List String := l.map (·.1)

/-- `k in d`. -/
def alHas {α : Type} (l : List (String × α)) (k : String) : Bool := (alGet l k).isSome

/-! ### Components, nodes, edges, pipeline state -/

/-- Modelled from the spec: the Component contract (its module is not in
the sources).  `run` is the opaque unit of work, modelled as a pure
function from the resolved inputs to a result dict; `component_inputs`
maps each input parameter name to its `has_default` flag;
`component_outputs` lists the declared output field names. -/
structure Component where
  run : InputDict → Dict
  component_inputs : List (String × Bool)
  component_outputs : List String

/-- `TaskPipelineNode` of pipeline.py: a component plus its run status
(the `asyncio.Lock` around the status is modelled by making every
status read/write an atomic step of the state machines below). -/
structure TaskPipelineNode where
  component : Component
  status : RunStatus

/-- `PipelineEdge`: start and end node names plus the attached data.
In pipeline.py the data is always the one-entry dict
`\x7b"input_config": cfg\x7d` where `cfg` is itself optional, so the
payload is modelled as `Option (Option cfg)`: the outer `none` is a
`None` data attribute, the inner `none` a `None` input_config. -/
structure PipelineEdge where
  start : String
  end' : String
  data : Option (Option (List (String × String)))
deriving DecidableEq, Repr

/-- The `Pipeline` state: the node dict `_nodes`, the edge list, and
the two result stores (`_store` and `_final_results`).  Stored results
are `Option Dict` because `on_task_complete` stores `None` when a task
produced no result. -/
structure Pipeline where
  nodes : List (String × TaskPipelineNode)
  edges : List PipelineEdge
  store : List (String × Option Dict)
  final_results : List (String × Option Dict)

/-- `get_node_by_name` (raises `KeyError` when absent, hence `Option`
here with the caller deciding). -/
def get_node_by_name (p : Pipeline) (name : String) : Option TaskPipelineNode :=
  alGet p.nodes name

/-- Modelled from the spec: `previous_edges(name)` returns all edges
ending at `name`, in insertion order (§4.1 of the spec). -/
def previous_edges (p : Pipeline) (name : String) : List PipelineEdge :=
  p.edges.filter (fun e => e.end' = name)

/-- Modelled from the spec: `next_edges(name)` returns all edges
starting at `name`, in insertion order (§4.1 of the spec). -/
def next_edges (p : Pipeline) (name : String) : List PipelineEdge :=
  p.edges.filter (fun e => e.start = name)

/-- Modelled from the spec: `is_leaf` is true iff the node has zero
outgoing edges (§4.1 of the spec). -/
def is_leaf (p : Pipeline) (name : String) : Bool :=
  (next_edges p name).isEmpty

/-- Insert an edge, overwriting any existing edge with the same
(start, end) pair in place (spec §3: at most one edge per ordered pair,
adding a duplicate overwrites). -/
def edgeUpsert : List PipelineEdge → PipelineEdge → List PipelineEdge
  | [], e => [e]
  | e' :: t, e =>
      if e'.start = e.start ∧ e'.end' = e.end' then e :: t else e' :: edgeUpsert t e

/-- Modelled from the spec: `add_edge` fails with a `LookupError`-kind
condition if either endpoint name is absent, otherwise
inserts/overwrites the edge (§4.1 of the spec). -/
def add_edge (p : Pipeline) (e : PipelineEdge) : Except PipelineError Pipeline :=
  if (alGet p.nodes e.start).isSome ∧ (alGet p.nodes e.end').isSome then
    .ok { p with edges := edgeUpsert p.edges e }
  else
    .error (.keyError (e.start ++ " or " ++ e.end'))

/-- One round of Kahn-style elimination: keep the nodes that still have
an incoming edge from a remaining node. -/
def kahnRound (edges : List PipelineEdge) (rem : List String) : List String :=
  rem.filter (fun n => edges.any (fun e => e.end' = n ∧ rem.contains e.start))

/-- Fuelled elimination loop for cycle detection. -/
def kahnLoop (edges : List PipelineEdge) : Nat → List String → Bool
  | 0, rem => !rem.isEmpty
  | fuel + 1, rem =>
      let rem' := kahnRound edges rem
      if rem'.length = rem.length then !rem.isEmpty else kahnLoop edges fuel rem'

/-- Modelled from the spec: `is_cyclic()` returns true iff the current
node/edge set contains a cycle (§4.1 of the spec describes a DFS
colouring; the equivalent repeated elimination of in-degree-zero nodes
is used here because it is structurally recursive). -/
def is_cyclic (p : Pipeline) : Bool :=
  kahnLoop p.edges p.nodes.length (alKeys p.nodes)

/-! ### TaskPipelineNode.set_status / execute -/

/-- `TaskPipelineNode.set_status` (pipeline.py lines 93-109), as a pure
transition on the status: raises `PipelineStatusUpdateError` when the
new status equals the current one, or when moving to `RUNNING` while
`DONE`; otherwise the new status is installed. -/
def set_status (current status : RunStatus) : Except PipelineError RunStatus :=
  if status = current then
    .error .statusUpdate
  else if status = RunStatus.RUNNING ∧ current = RunStatus.DONE then
    -- can't go back to RUNNING from DONE
    .error .statusUpdate
  else
    .ok status

/-- `RunResult` of pipeline.py (the timestamp field, a wall-clock
value, is not modelled). -/
structure RunResult where
  status : RunStatus
  result : Option Dict
deriving DecidableEq, Repr

/-- Outcome of `TaskPipelineNode.execute`: the node status afterwards,
the returned value (`none` embeds Python's `None` return), and how
often the wrapped component's `run` was invoked. -/
structure ExecResult where
  status : RunStatus
  result : Option RunResult
  runCount : Nat
deriving DecidableEq, Repr

/-- `TaskPipelineNode.execute` (pipeline.py lines 115-141): try to move
to `RUNNING`, returning `None` if that raises `StatusUpdateError`
(caught); otherwise run the component, move to `DONE` and return a
`RunResult` built from the node's status and the component result.  An
error from the second `set_status` would propagate, hence the outer
`Except`. -/
def execute (current : RunStatus) (component : InputDict → Dict) (inputs : InputDict) :
    Except PipelineError ExecResult :=
  match set_status current RunStatus.RUNNING with
  | .error _ => .ok ⟨current, none, 0⟩
  | .ok st1 =>
      let component_result := component inputs
      match set_status st1 RunStatus.DONE with
      | .error e => .error e
      | .ok st2 => .ok ⟨st2, some ⟨st2, some component_result⟩, 1⟩

/-! ### Orchestrator -/

/-- Split a character list at every `'.'` (Python `str.split(".")` on
the underlying characters: `n` dots give `n+1` parts, possibly empty). -/
def splitDotsChars : List Char → List (List Char)
  | [] => [[]]
  | c :: rest =>
      if c = '.' then [] :: splitDotsChars rest
      else
        match splitDotsChars rest with
        | [] => [[c]]
        | h :: t => (c :: h) :: t

/-- `mapping.split(".")`. -/
def splitDots (s : String) : List String :=
  (splitDotsChars s.data).map (fun cs => ⟨cs⟩)

/-- `mapping.split(".")` followed by the two-element unpacking of
pipeline.py (lines 290-297 and 478-486): exactly two parts give
`(component, some field)`; any other number of parts raises
`ValueError`, which the code catches by using the whole string as the
component name with no field. -/
def splitMapping (mapping : String) : String × Option String :=
  match splitDots mapping with
  | [component, output_param] => (component, some output_param)
  | _ => (mapping, none)

/-- `Orchestrator.check_dependencies_complete` (pipeline.py lines
203-217): for each incoming edge of `task`, read the start node's
status and raise `PipelineMissingDependencyError` if it is not `DONE`
(a missing start node would raise `KeyError` from
`get_node_by_name`). -/
def check_dependencies_complete (p : Pipeline) (taskName : String) :
    Except PipelineError Unit :=
  go (previous_edges p taskName)
where
  go : List PipelineEdge → Except PipelineError Unit
  | [] => .ok ()
  | d :: rest =>
      match get_node_by_name p d.start with
      | none => .error (.keyError d.start)
      | some start_node =>
          if start_node.status ≠ RunStatus.DONE then .error .missingDependency
          else go rest

/-- `Orchestrator.next` (pipeline.py lines 219-244), with the yielded
nodes collected into a list: for every outgoing edge of `task`, skip
the destination if its status is `RUNNING` or `DONE`; otherwise check
its dependencies, silently skipping it when that raises
`PipelineMissingDependencyError`; otherwise yield it. -/
def Orchestrator.next (p : Pipeline) (taskName : String) :
    Except PipelineError (List String) :=
  go (next_edges p taskName)
where
  go : List PipelineEdge → Except PipelineError (List String)
  | [] => .ok []
  | next_edge :: rest =>
      match get_node_by_name p next_edge.end' with
      | none => .error (.keyError next_edge.end')
      | some next_node =>
          if next_node.status = RunStatus.RUNNING ∨ next_node.status = RunStatus.DONE then
            go rest
          else
            match check_dependencies_complete p next_edge.end' with
            | .error .missingDependency => go rest
            | .error e => .error e
            | .ok _ => (go rest).map (next_edge.end' :: ·)

/-- Modelled from the spec: `InMemoryStore.get` of the missing
stores.py, a `KeyError`-kind failure when the key is absent (§6 of the
spec); this is `Pipeline.get_results_for_component`. -/
def get_results_for_component (p : Pipeline) (name : String) :
    Except PipelineError (Option Dict) :=
  match alGet p.store name with
  | none => .error (.keyError name)
  | some r => .ok r

/-- Resolve one `input_config` entry against the store, as done in the
loop body of `get_component_inputs`: split the mapping, fetch the
source component's stored result, and either extract the single field
(`dict.get`, so a missing field yields `None`; calling `.get` on a
`None` stored result raises `AttributeError`) or use the whole stored
result. -/
def resolveMapping (p : Pipeline) (mapping : String) : Except PipelineError Value :=
  let (component, output_param) := splitMapping mapping
  match get_results_for_component p component with
  | .error e => .error e
  | .ok component_result =>
      match output_param with
      | some f =>
          match component_result with
          | none => .error .attributeError
          | some d =>
              match alGet d f with
              | some v => .ok (.flat v)
              | none => .ok (.flat .vnone)
      | none =>
          match component_result with
          | none => .ok (.flat .vnone)
          | some d => .ok (.dict d)

/-- Result of `get_component_inputs`: the resolved per-component input
dict, the user's `input_data` as observable after the call (the
returned dict is the object stored in `input_data`, so writes to it are
writes into `input_data`), and the parameters a replacement warning was
emitted for. -/
structure ComponentInputs where
  inputs : InputDict
  data' : InputData
  warned : List String
deriving DecidableEq, Repr

/-- `Orchestrator.get_component_inputs` (pipeline.py lines 272-308).
`component_inputs` starts as `input_data.get(component_name, \x7b\x7d)` —
the dict object stored in `input_data` itself when the key is present —
then each `input_config` entry is resolved against the result store and
assigned into it, warning when it overwrites a user-supplied key.  The
in-place mutation of the caller-owned dict is modelled by returning the
updated `input_data` alongside. -/
def get_component_inputs (p : Pipeline) (component_name : String)
    (input_config : List (String × String)) (input_data : InputData) :
    Except PipelineError ComponentInputs :=
  let init := (alGet input_data component_name).getD []
  match go init [] input_config with
  | .error e => .error e
  | .ok (component_inputs, warned) =>
      .ok ⟨component_inputs,
           if alHas input_data component_name then
             alInsert input_data component_name component_inputs
           else input_data,
           warned⟩
where
  go (inputs : InputDict) (warned : List String) :
      List (String × String) → Except PipelineError (InputDict × List String)
  | [] => .ok (inputs, warned)
  | (parameter, mapping) :: rest =>
      match resolveMapping p mapping with
      | .error e => .error e
      | .ok value =>
          let warned' := if alHas inputs parameter then warned ++ [parameter] else warned
          go (alInsert inputs parameter value) warned' rest

/-! ### Pipeline-level operations -/

/-- `Pipeline.connect` (pipeline.py lines 381-413): build the edge with
data `\x7b"input_config": input_config\x7d`, `add_edge` it (`KeyError`
becomes `PipelineDefinitionError`), then raise `PipelineDefinitionError`
if the graph became cyclic — without removing the just-inserted edge.
The pair returned is (state after the call, raised error if any). -/
def connect (p : Pipeline) (start_component_name end_component_name : String)
    (input_config : Option (List (String × String))) :
    Pipeline × Option PipelineError :=
  let edge : PipelineEdge :=
    ⟨start_component_name, end_component_name, some input_config⟩
  match add_edge p edge with
  | .error _ =>
      (p, some (.definition
        (start_component_name ++ " or " ++ end_component_name ++ " is not in the Pipeline")))
  | .ok p' =>
      if is_cyclic p' then (p', some (.definition "Cyclic graph are not allowed"))
      else (p', none)

/-- `Pipeline.on_task_complete` together with
`add_result_for_component` (pipeline.py lines 415-433): store the
dumped result under the task's name, and also in the final-results
store when the task is a leaf. -/
def on_task_complete (p : Pipeline) (taskName : String) (result : RunResult) : Pipeline :=
  let res_to_save := result.result
  { p with
    store := alInsert p.store taskName res_to_save,
    final_results :=
      if is_leaf p taskName then alInsert p.final_results taskName res_to_save
      else p.final_results }

/-- `Pipeline.reinitialize` (pipeline.py lines 438-445): empty both
stores and reset every task status to `SCHEDULED`
(`TaskPipelineNode.reinitialize`). -/
def reinit (p : Pipeline) : Pipeline :=
  { p with
    store := [],
    final_results := [],
    nodes := p.nodes.map (fun nt => (nt.1, { nt.2 with status := RunStatus.SCHEDULED })) }

/-- The per-entry output check of `validate_inputs_config_for_task`
(pipeline.py lines 478-495): a mapping that does not split into exactly
two parts is skipped; otherwise the source node is looked up (a missing
node is a `KeyError`) and a non-empty field name absent from the source
component's declared outputs is a `PipelineDefinitionError`. -/
def checkEdgeInputs (p : Pipeline) :
    List (String × String) → Except PipelineError Unit
  | [] => .ok ()
  | (_, path) :: rest =>
      match splitMapping path with
      | (_, none) => checkEdgeInputs p rest
      | (source_component_name, some param_name) =>
          match get_node_by_name p source_component_name with
          | none => .error (.keyError source_component_name)
          | some source_node =>
              if param_name ≠ "" ∧
                  param_name ∉ source_node.component.component_outputs then
                .error (.definition
                  ("Parameter " ++ param_name ++ " is not valid output for "
                    ++ source_component_name))
              else checkEdgeInputs p rest

/-- The `input_config` dict attached to an edge, as read by
`validate_inputs_config_for_task`: `edge.data or \x7b\x7d` followed by
`.get("input_config") or \x7b\x7d`. -/
def edgeInputConfig (e : PipelineEdge) : List (String × String) :=
  match e.data with
  | none => []
  | some none => []
  | some (some cfg) => cfg

/-- `Pipeline.validate_inputs_config_for_task` (pipeline.py lines
456-504): collect the mandatory inputs (those without a default), the
user-supplied keys for the task and the parameter names mapped by
incoming edges (validating each mapped field against the source
component's declared outputs on the way); fail with
`PipelineDefinitionError` when some mandatory input is covered by
neither source. -/
def validate_inputs_config_for_task (p : Pipeline) (taskName : String)
    (task : TaskPipelineNode) (input_data : InputData) :
    Except PipelineError Bool :=
  let expected_mandatory_inputs :=
    (task.component.component_inputs.filter (fun pc => pc.2 = false)).map (·.1)
  let actual_inputs := alKeys ((alGet input_data taskName).getD [])
  match goEdges (previous_edges p taskName) actual_inputs with
  | .error e => .error e
  | .ok actual =>
      if ∃ m ∈ expected_mandatory_inputs, m ∉ actual then
        .error (.definition ("Missing input parameters for " ++ taskName))
      else .ok true
where
  goEdges : List PipelineEdge → List String → Except PipelineError (List String)
  | [], actual => .ok actual
  | edge :: rest, actual =>
      let edge_inputs := edgeInputConfig edge
      match checkEdgeInputs p edge_inputs with
      | .error e => .error e
      | .ok _ => goEdges rest (actual ++ alKeys edge_inputs)

/-- `Pipeline.validate_inputs_config` (pipeline.py lines 447-454):
validate every task in turn. -/
def validate_inputs_config (p : Pipeline) (data : InputData) :
    Except PipelineError Unit :=
  go p.nodes
where
  go : List (String × TaskPipelineNode) → Except PipelineError Unit
  | [] => .ok ()
  | (name, task) :: rest =>
      match validate_inputs_config_for_task p name task data with
      | .error e => .error e
      | .ok _ => go rest

/-- `Pipeline.run` (pipeline.py lines 506-515): validate the inputs,
reinitialize, let the orchestrator drive the tasks — abstracted here as
the trace of `(task name, RunResult)` completions it performs, each one
going through `Pipeline.on_task_complete` — and return the snapshot
`self._final_results.all()`. -/
def Pipeline.run (p : Pipeline) (data : InputData)
    (completions : List (String × RunResult)) :
    Except PipelineError (List (String × Option Dict)) :=
  match validate_inputs_config p data with
  | .error e => .error e
  | .ok _ =>
      let p1 := reinit p
      let p2 := completions.foldl (fun q c => on_task_complete q c.1 c.2) p1
      .ok p2.final_results

/-! ### Completion-callback race model (two roots, one consumer)

The scenario of spec §8: roots `r1`, `r2` and a consumer `c` with edges
`r1→c` and `r2→c`.  Each root's completion callback
(`Orchestrator.on_task_complete` → `next` → `run_task` → `execute`) is a
thread of atomic steps; atomicity boundaries are exactly the `await`
points of pipeline.py: every lock-protected status read/write and the
component invocation.  Thread `i`'s program counter:

* 0: the root's own final `set_status(DONE)` (end of its `execute`);
* 1: `next`: read `c`'s status, exit if `RUNNING`/`DONE`;
* 2/3: `check_dependencies_complete`: read `r1` then `r2`, exit (skip)
  if not `DONE`;
* 4/5: `get_input_config_for_task`: re-read `r1` then `r2`, exit
  (raise) if not `DONE`;
* 6: `c.execute`'s `set_status(RUNNING)` through `set_status`; on
  `StatusUpdateError` exit (the `None` no-op);
* 7: invoke `c`'s component (`count` increments);
* 8: `c`'s `set_status(DONE)` through `set_status`;
* 9: finished.

Root `i`'s status being `DONE` is encoded as `1 ≤ pc_i`. -/

/-- State of the two-callback race: the two program counters, the
consumer's status and the number of times the consumer's component ran. -/
structure RaceState where
  pc1 : Nat
  pc2 : Nat
  st : RunStatus
  count : Nat
deriving DecidableEq, Repr

/-- One atomic step of one callback thread (see the section comment for
the program counter meanings). `done1`/`done2` are the root statuses
read at that moment. -/
def threadStep (pc : Nat) (done1 done2 : Bool) (st : RunStatus) (count : Nat) :
    Nat × RunStatus × Nat :=
  match pc with
  | 0 => (1, st, count)
  | 1 => if st = RunStatus.RUNNING ∨ st = RunStatus.DONE then (9, st, count)
         else (2, st, count)
  | 2 => if done1 then (3, st, count) else (9, st, count)
  | 3 => if done2 then (4, st, count) else (9, st, count)
  | 4 => if done1 then (5, st, count) else (9, st, count)
  | 5 => if done2 then (6, st, count) else (9, st, count)
  | 6 => match set_status st RunStatus.RUNNING with
         | .error _ => (9, st, count)
         | .ok st' => (7, st', count)
  | 7 => (8, st, count + 1)
  | 8 => match set_status st RunStatus.DONE with
         | .error _ => (10, st, count)
         | .ok st' => (9, st', count)
  | _ => (pc, st, count)

/-- Scheduler step: run one atomic action of thread 1 (`true`) or
thread 2 (`false`). -/
def raceStep (s : RaceState) (i : Bool) : RaceState :=
  let done1 := decide (1 ≤ s.pc1)
  let done2 := decide (1 ≤ s.pc2)
  if i then
    let r := threadStep s.pc1 done1 done2 s.st s.count
    ⟨r.1, s.pc2, r.2.1, r.2.2⟩
  else
    let r := threadStep s.pc2 done1 done2 s.st s.count
    ⟨s.pc1, r.1, r.2.1, r.2.2⟩

/-- Initial race state: both callbacks pending, consumer `SCHEDULED`
(as left by `reinitialize`), component not yet run. -/
def raceInit : RaceState := ⟨0, 0, RunStatus.SCHEDULED, 0⟩

/-- Run a schedule (an arbitrary interleaving of the two callback
threads) from the initial state. -/
def raceExec (sched : List Bool) : RaceState :=
  sched.foldl raceStep raceInit

/-! ### Predicates used in the characterization theorems -/

/-- The readiness condition checked for one candidate: its node exists
and is neither `RUNNING` nor `DONE`, and all its predecessors are
stored `DONE`. -/
def ReadyChild (p : Pipeline) (c : String) : Prop :=
  (∃ n, get_node_by_name p c = some n ∧
    n.status ≠ RunStatus.RUNNING ∧ n.status ≠ RunStatus.DONE)
  ∧ (∀ d ∈ p.edges, d.end' = c →
      ∃ m, get_node_by_name p d.start = some m ∧ m.status = RunStatus.DONE)

/-- Thread `pc` is inside the guarded section of the consumer's
`execute` (component running, or about to set `DONE`). -/
abbrev activePc (pc : Nat) : Prop := pc = 7 ∨ pc = 8

/-- The consumer-component invocation count determined by the
invariant from the consumer status and the two program counters. -/
def countOf (st : RunStatus) (pc1 pc2 : Nat) : Nat :=
  match st with
  | RunStatus.RUNNING => if pc1 = 8 ∨ pc2 = 8 then 1 else 0
  | RunStatus.DONE => 1
  | _ => 0

/-- Structural invariant of the two-callback race relating the
consumer's status to the thread positions: while `SCHEDULED` nobody is
in the guarded section and not both threads have finished; while
`RUNNING` exactly one thread is in the guarded section; once `DONE`
nobody is and both roots finished; a thread past the dependency checks
has seen the other root `DONE`. -/
abbrev raceInv0 (pc1 pc2 : Nat) (st : RunStatus) : Prop :=
  pc1 ≤ 9 ∧ pc2 ≤ 9 ∧
  (st = RunStatus.SCHEDULED ∨ st = RunStatus.RUNNING ∨ st = RunStatus.DONE) ∧
  (st = RunStatus.SCHEDULED →
    ¬activePc pc1 ∧ ¬activePc pc2 ∧ ¬(pc1 = 9 ∧ pc2 = 9)) ∧
  (st = RunStatus.RUNNING →
    (activePc pc1 ∧ ¬activePc pc2) ∨ (activePc pc2 ∧ ¬activePc pc1)) ∧
  (st = RunStatus.DONE →
    ¬activePc pc1 ∧ ¬activePc pc2 ∧ 1 ≤ pc1 ∧ 1 ≤ pc2) ∧
  (4 ≤ pc1 → pc1 ≤ 8 → 1 ≤ pc2) ∧
  (3 ≤ pc2 → pc2 ≤ 8 → 1 ≤ pc1)

/-- Full race invariant: the structural part plus the count law. -/
abbrev raceInv (s : RaceState) : Prop :=
  raceInv0 s.pc1 s.pc2 s.st ∧ s.count = countOf s.st s.pc1 s.pc2

instance (pc1 pc2 : Nat) (st : RunStatus) : Decidable (raceInv0 pc1 pc2 st) := by
  unfold raceInv0 activePc
  infer_instance

instance (s : RaceState) : Decidable (raceInv s) := by
  unfold raceInv
  infer_instance

/-! ### Predicates used to characterize input validation (C7) -/

/-- Well-formedness of one mapping entry for validation purposes: if
the reference splits as `component.field`, the source component is a
node of the pipeline (otherwise `validate` raises `KeyError`, outside
the claim's `DefinitionError` dichotomy). -/
def entryWF (p : Pipeline) (path : String) : Bool :=
  match splitMapping path with
  | (_, none) => true
  | (src, some _) => (get_node_by_name p src).isSome

/-- All mapping entries of all incoming edges of a task are
well-formed. -/
def taskEdgesWF (p : Pipeline) (taskName : String) : Bool :=
  (previous_edges p taskName).all
    (fun e => (edgeInputConfig e).all (fun pm => entryWF p pm.2))

/-- A mapping entry of the form `component.field` (with a non-empty
field) naming a field that is not among the source component's declared
outputs. -/
def BadEntry (p : Pipeline) (path : String) : Prop :=
  ∃ src f, splitMapping path = (src, some f) ∧ f ≠ "" ∧
    ∃ n, get_node_by_name p src = some n ∧ f ∉ n.component.component_outputs

/-- Some incoming edge of the task maps a field missing from the source
component's declared outputs. -/
def HasBadEdgeEntry (p : Pipeline) (taskName : String) : Prop :=
  ∃ e ∈ previous_edges p taskName, ∃ pm ∈ edgeInputConfig e, BadEntry p pm.2

/-- Some mandatory input parameter of the task (declared without a
default) is covered neither by a user-supplied key for that task nor by
a parameter name mapped on an incoming edge. -/
def MissingMandatoryInput (p : Pipeline) (taskName : String)
    (task : TaskPipelineNode) (input_data : InputData) : Prop :=
  ∃ m, m ∈ (task.component.component_inputs.filter (fun pc => pc.2 = false)).map Prod.fst
    ∧ m ∉ alKeys ((alGet input_data taskName).getD [])
    ∧ ∀ e ∈ previous_edges p taskName, m ∉ alKeys (edgeInputConfig e)

/-! ### Concrete fixtures used by the witnesses -/

/-- A component declaring the single output `y`. -/
def compOutY : Component := ⟨fun _ => [("y", FlatValue.vnat 5)], [], ["y"]⟩

/-- A component with the single mandatory input `x`. -/
def compNeedsX : Component := ⟨fun _ => [], [("x", false)], []⟩

/-- `P1 → P2` with `P2.x` mapped from `P1.y`. -/
def pVal : Pipeline :=
  ⟨[("P1", ⟨compOutY, RunStatus.UNKNOWN⟩), ("P2", ⟨compNeedsX, RunStatus.UNKNOWN⟩)],
   [⟨"P1", "P2", some (some [("x", "P1.y")])⟩], [], []⟩

/-- A component with no declared inputs or outputs returning an empty
result. -/
def comp0 : Component := ⟨fun _ => [], [], []⟩

/-- A freshly added node (status `UNKNOWN`). -/
def nodeU : TaskPipelineNode := ⟨comp0, RunStatus.UNKNOWN⟩

/-- Three components `A`, `B`, `C` with the single edge `A→B`. -/
def pABC : Pipeline :=
  ⟨[("A", nodeU), ("B", nodeU), ("C", nodeU)], [⟨"A", "B", some none⟩], [], []⟩

/-- A `DONE` node and a `SCHEDULED` node over the trivial component. -/
def nodeDONE : TaskPipelineNode := ⟨comp0, RunStatus.DONE⟩

def nodeSCHED : TaskPipelineNode := ⟨comp0, RunStatus.SCHEDULED⟩

/-- Two finished roots `r1`, `r2` feeding a scheduled consumer `c`. -/
def pTwoRoots : Pipeline :=
  ⟨[("r1", nodeDONE), ("r2", nodeDONE), ("c", nodeSCHED)],
   [⟨"r1", "c", some none⟩, ⟨"r2", "c", some none⟩], [], []⟩

/-- A store holding `P1`'s result `\x7by: 5\x7d`. -/
def pStoreP1 : Pipeline :=
  ⟨[], [], [("P1", some [("y", FlatValue.vnat 5)])], []⟩

/-- A store keyed by the full string `"a.b.c"`. -/
def pStoreDots : Pipeline :=
  ⟨[], [], [("a.b.c", some [("k", FlatValue.vnat 7)])], []⟩

/-! ## Theorems -/

theorem alGet_alInsert_self {α : Type} (l : List (String × α)) (k : String) (v : α) :
    alGet (alInsert l k v) k = some v := by
  induction l with
  | nil => simp [alInsert, alGet]
  | cons a t ih =>
      by_cases h : a.1 = k
      · simp [alInsert, h, alGet]
      · cases a
        simp_all [alInsert, alGet, h]

theorem self_mem_alKeys_alInsert {α : Type} (l : List (String × α)) (k : String) (v : α) :
    k ∈ alKeys (alInsert l k v) := by
  induction l with
  | nil => simp [alInsert, alKeys]
  | cons a t ih =>
      by_cases h : a.1 = k
      · simp [alInsert, h, alKeys]
      · cases a
        simp_all [alInsert, alKeys, h]

theorem mem_edgeUpsert (l : List PipelineEdge) (e : PipelineEdge) :
    e ∈ edgeUpsert l e := by
  induction l with
  | nil => simp [edgeUpsert]
  | cons a t ih =>
      by_cases h : a.start = e.start ∧ a.end' = e.end' <;>
        simp [edgeUpsert, h, ih]

/-- C1: `TaskPipelineNode.set_status(s)` raises a
`StatusUpdateError`-kind error exactly when `s` equals the current
status (for every status) or `s` is `RUNNING` while the current status
is `DONE`; every other (current, new) pair succeeds and installs `s` as
the node's status. -/
theorem set_status_characterization :
    ∀ current status : RunStatus,
      (set_status current status = .error .statusUpdate ↔
        (status = current ∨ (status = RunStatus.RUNNING ∧ current = RunStatus.DONE)))
      ∧ (¬(status = current ∨ (status = RunStatus.RUNNING ∧ current = RunStatus.DONE)) →
          set_status current status = .ok status) := by
  intro current status
  cases current <;> cases status <;> simp [set_status]

/-- Witness for C1 at a concrete admissible transition. -/
theorem set_status_characterization_witness :
    set_status RunStatus.SCHEDULED RunStatus.RUNNING = .ok RunStatus.RUNNING :=
  (set_status_characterization RunStatus.SCHEDULED RunStatus.RUNNING).2 (by decide)

/-- C2: `TaskPipelineNode.execute` returns `None` without invoking the
component when the node is already `RUNNING` or `DONE` (the rejected
transition); otherwise it runs the component exactly once on the given
inputs, ends with status `DONE`, and returns a `RunResult` with status
`DONE` carrying the component's output; in both cases no error is
propagated. -/
theorem execute_characterization :
    ∀ (current : RunStatus) (component : InputDict → Dict) (inputs : InputDict),
      ((current = RunStatus.RUNNING ∨ current = RunStatus.DONE) →
        execute current component inputs = .ok ⟨current, none, 0⟩)
      ∧ (¬(current = RunStatus.RUNNING ∨ current = RunStatus.DONE) →
        execute current component inputs =
          .ok ⟨RunStatus.DONE, some ⟨RunStatus.DONE, some (component inputs)⟩, 1⟩)
      ∧ (execute current component inputs).isOk = true := by
  intro current component inputs
  cases current <;> simp [execute, set_status, Except.isOk, Except.toBool]

/-- Witness for C2 at a concrete scheduled node. -/
theorem execute_characterization_witness :
    execute RunStatus.SCHEDULED (fun _ => [("y", FlatValue.vnat 5)]) [] =
      .ok ⟨RunStatus.DONE,
            some ⟨RunStatus.DONE, some [("y", FlatValue.vnat 5)]⟩, 1⟩ :=
  (execute_characterization RunStatus.SCHEDULED (fun _ => [("y", FlatValue.vnat 5)]) []).2.1
    (by decide)

/-- C4: `Pipeline.connect(start, end, input_config)` raises nothing
when both endpoints exist and the resulting graph is acyclic; it raises
a `DefinitionError`-kind error when either endpoint is absent (leaving
the graph unchanged), and raises a `DefinitionError`-kind error when
the inserted edge makes the graph cyclic — in which case the
just-inserted edge is NOT removed from the graph before raising. -/
theorem connect_characterization :
    ∀ (p : Pipeline) (s t : String) (cfg : Option (List (String × String))),
      (((alGet p.nodes s).isSome ∧ (alGet p.nodes t).isSome) →
        (is_cyclic { p with edges := edgeUpsert p.edges ⟨s, t, some cfg⟩ } = false →
          (connect p s t cfg).2 = none)
        ∧ (is_cyclic { p with edges := edgeUpsert p.edges ⟨s, t, some cfg⟩ } = true →
          (∃ msg, (connect p s t cfg).2 = some (.definition msg))
          ∧ (⟨s, t, some cfg⟩ : PipelineEdge) ∈ (connect p s t cfg).1.edges))
      ∧ (¬((alGet p.nodes s).isSome ∧ (alGet p.nodes t).isSome) →
        (∃ msg, (connect p s t cfg).2 = some (.definition msg))
        ∧ (connect p s t cfg).1 = p) := by
  intro p s t cfg
  constructor
  · intro h
    constructor
    · intro hcyc
      simp [connect, add_edge, h, hcyc]
    · intro hcyc
      refine ⟨⟨"Cyclic graph are not allowed", ?_⟩, ?_⟩ <;>
        simp [connect, add_edge, h, hcyc, mem_edgeUpsert]
  · intro h
    simp [connect, add_edge, h]

/-- Witness for C4: on `A→B`, connecting `B→C` succeeds, connecting
`B→A` (a cycle) raises and keeps the edge, and an unknown endpoint
raises. -/
theorem connect_characterization_witness :
    (connect pABC "B" "C" none).2 = none
    ∧ (∃ msg, (connect pABC "B" "A" none).2 = some (.definition msg))
    ∧ (⟨"B", "A", some none⟩ : PipelineEdge) ∈ (connect pABC "B" "A" none).1.edges
    ∧ (∃ msg, (connect pABC "A" "Z" none).2 = some (.definition msg)) :=
  ⟨((connect_characterization pABC "B" "C" none).1 (by decide)).1 (by decide),
   (((connect_characterization pABC "B" "A" none).1 (by decide)).2 (by decide)).1,
   (((connect_characterization pABC "B" "A" none).1 (by decide)).2 (by decide)).2,
   ((connect_characterization pABC "A" "Z" none).2 (by decide)).1⟩

theorem mem_previous_edges (p : Pipeline) (name : String) (d : PipelineEdge) :
    d ∈ previous_edges p name ↔ d ∈ p.edges ∧ d.end' = name := by
  simp [previous_edges]

theorem mem_next_edges (p : Pipeline) (name : String) (e : PipelineEdge) :
    e ∈ next_edges p name ↔ e ∈ p.edges ∧ e.start = name := by
  simp [next_edges]

/-- `check_dependencies_complete.go` succeeds iff every listed edge's
start node is stored with status `DONE`; when all start nodes exist,
the only possible failure is `missingDependency`. -/
theorem check_go_characterization (p : Pipeline) :
    ∀ edges : List PipelineEdge,
      (∀ d ∈ edges, (get_node_by_name p d.start).isSome) →
      (check_dependencies_complete.go p edges = .ok () ↔
        ∀ d ∈ edges, ∃ m, get_node_by_name p d.start = some m ∧
          m.status = RunStatus.DONE)
      ∧ (check_dependencies_complete.go p edges ≠ .ok () →
        check_dependencies_complete.go p edges = .error .missingDependency) := by
  intro edges
  induction edges with
  | nil => simp [check_dependencies_complete.go]
  | cons d rest ih =>
      intro hwf
      obtain ⟨m, hm⟩ := Option.isSome_iff_exists.mp (hwf d (by simp))
      have ihr := ih (fun x hx => hwf x (by simp [hx]))
      by_cases hs : m.status = RunStatus.DONE
      · constructor
        · rw [show check_dependencies_complete.go p (d :: rest) =
              check_dependencies_complete.go p rest by
            simp [check_dependencies_complete.go, hm, hs]]
          rw [ihr.1]
          constructor
          · intro h x hx
            rcases List.mem_cons.mp hx with h1 | h2
            · exact h1 ▸ ⟨m, hm, hs⟩
            · exact h x h2
          · intro h x hx
            exact h x (by simp [hx])
        · rw [show check_dependencies_complete.go p (d :: rest) =
              check_dependencies_complete.go p rest by
            simp [check_dependencies_complete.go, hm, hs]]
          exact ihr.2
      · constructor
        · rw [show check_dependencies_complete.go p (d :: rest) =
              .error .missingDependency by
            simp [check_dependencies_complete.go, hm, hs]]
          constructor
          · intro h
            cases h
          · intro h
            obtain ⟨m', hm', hs'⟩ := h d (by simp)
            rw [hm] at hm'
            cases hm'
            exact absurd hs' hs
        · intro _
          simp [check_dependencies_complete.go, hm, hs]

theorem next_go_characterization (p : Pipeline)
    (hwf : ∀ e ∈ p.edges, (get_node_by_name p e.start).isSome ∧
      (get_node_by_name p e.end').isSome) :
    ∀ edges : List PipelineEdge,
      (∀ e ∈ edges, e ∈ p.edges) →
      ∃ l, Orchestrator.next.go p edges = .ok l ∧
        ∀ c, c ∈ l ↔ ∃ e ∈ edges, e.end' = c ∧ ReadyChild p c := by
  intro edges
  induction edges with
  | nil => exact fun _ => ⟨[], by simp [Orchestrator.next.go]⟩
  | cons e rest ih =>
      intro hsub
      obtain ⟨l', hgo', hmem'⟩ := ih (fun x hx => hsub x (by simp [hx]))
      obtain ⟨n, hn⟩ :=
        Option.isSome_iff_exists.mp (hwf e (hsub e (by simp))).2
      have hpwf : ∀ d ∈ previous_edges p e.end',
          (get_node_by_name p d.start).isSome :=
        fun d hd => (hwf d ((mem_previous_edges p e.end' d).mp hd).1).1
      have hcheck := check_go_characterization p (previous_edges p e.end') hpwf
      have hcdc : check_dependencies_complete p e.end' =
          check_dependencies_complete.go p (previous_edges p e.end') := rfl
      have hkey : ∀ c, e.end' = c →
          (ReadyChild p c ↔
            (¬(n.status = RunStatus.RUNNING ∨ n.status = RunStatus.DONE)
              ∧ check_dependencies_complete p e.end' = .ok ())) := by
        intro c hc
        constructor
        · rintro ⟨⟨n', hn', h1, h2⟩, hpred⟩
          rw [← hc, hn] at hn'
          cases hn'
          refine ⟨?_, ?_⟩
          · rintro (h | h)
            exacts [h1 h, h2 h]
          · rw [hcdc, hcheck.1]
            intro d hd
            exact hpred d ((mem_previous_edges p e.end' d).mp hd).1
              (by rw [((mem_previous_edges p e.end' d).mp hd).2, hc])
        · rintro ⟨hst2, hok⟩
          refine ⟨⟨n, by rw [← hc]; exact hn,
            fun h => hst2 (Or.inl h), fun h => hst2 (Or.inr h)⟩, ?_⟩
          intro d hd hdc
          rw [hcdc] at hok
          exact hcheck.1.mp hok d
            ((mem_previous_edges p e.end' d).mpr ⟨hd, by rw [hdc, ← hc]⟩)
      by_cases hst : n.status = RunStatus.RUNNING ∨ n.status = RunStatus.DONE
      · refine ⟨l', by simp [Orchestrator.next.go, hn, hst, hgo'], fun c => ?_⟩
        rw [hmem' c]
        constructor
        · rintro ⟨x, hx, hxc, hready⟩
          exact ⟨x, by simp [hx], hxc, hready⟩
        · rintro ⟨x, hx, hxc, hready⟩
          rcases List.mem_cons.mp hx with h1 | h2
          · exfalso
            have hec : e.end' = c := by rw [← h1]; exact hxc
            exact ((hkey c hec).mp hready).1 hst
          · exact ⟨x, h2, hxc, hready⟩
      · rcases hdep : check_dependencies_complete p e.end' with err | u
        · have herr : err = PipelineError.missingDependency := by
            have h2 := hcheck.2 (by rw [← hcdc, hdep]; intro h; cases h)
            rw [← hcdc, hdep] at h2
            cases h2
            rfl
          subst herr
          refine ⟨l', by simp [Orchestrator.next.go, hn, hst, hdep, hgo'], fun c => ?_⟩
          rw [hmem' c]
          constructor
          · rintro ⟨x, hx, hxc, hready⟩
            exact ⟨x, by simp [hx], hxc, hready⟩
          · rintro ⟨x, hx, hxc, hready⟩
            rcases List.mem_cons.mp hx with h1 | h2
            · exfalso
              have hec : e.end' = c := by rw [← h1]; exact hxc
              have hok := ((hkey c hec).mp hready).2
              rw [hdep] at hok
              cases hok
            · exact ⟨x, h2, hxc, hready⟩
        · have hok : check_dependencies_complete p e.end' = .ok () := by
            rw [hdep]
          refine ⟨e.end' :: l',
            by simp [Orchestrator.next.go, hn, hst, hdep, hgo', Except.map], fun c => ?_⟩
          constructor
          · intro hc
            rcases List.mem_cons.mp hc with h1 | h2
            · exact ⟨e, by simp, h1.symm,
                (hkey c h1.symm).mpr ⟨hst, hok⟩⟩
            · obtain ⟨x, hx, hxc, hready⟩ := (hmem' c).mp h2
              exact ⟨x, by simp [hx], hxc, hready⟩
          · rintro ⟨x, hx, hxc, hready⟩
            rcases List.mem_cons.mp hx with h1 | h2
            · refine List.mem_cons.mpr (Or.inl ?_)
              rw [← hxc, h1]
            · exact List.mem_cons.mpr (Or.inr ((hmem' c).mpr ⟨x, h2, hxc, hready⟩))

/-- C3: `Orchestrator.next(task)` raises nothing and yields a child `c`
reachable by an outgoing edge of `task` iff `c`'s status is neither
`RUNNING` nor `DONE` and every predecessor of `c` reads `DONE`; a child
failing either check is skipped silently, suppressing no other child. -/
theorem orchestrator_next_characterization :
    ∀ (p : Pipeline) (taskName : String),
      (∀ e ∈ p.edges, (get_node_by_name p e.start).isSome ∧
        (get_node_by_name p e.end').isSome) →
      ∃ l, Orchestrator.next p taskName = .ok l ∧
        ∀ c, c ∈ l ↔
          (∃ e ∈ p.edges, e.start = taskName ∧ e.end' = c) ∧ ReadyChild p c := by
  intro p taskName hwf
  obtain ⟨l, hgo, hmem⟩ :=
    next_go_characterization p hwf (next_edges p taskName)
      (fun e he => ((mem_next_edges p taskName e).mp he).1)
  refine ⟨l, hgo, fun c => ?_⟩
  rw [hmem c]
  constructor
  · rintro ⟨e, he, hec, hready⟩
    obtain ⟨hep, hes⟩ := (mem_next_edges p taskName e).mp he
    exact ⟨⟨e, hep, hes, hec⟩, hready⟩
  · rintro ⟨⟨e, hep, hes, hec⟩, hready⟩
    exact ⟨e, (mem_next_edges p taskName e).mpr ⟨hep, hes⟩, hec, hready⟩

/-- Witness for C3 on the two-roots pipeline with both roots `DONE`. -/
theorem orchestrator_next_characterization_witness :
    ∃ l, Orchestrator.next pTwoRoots "r1" = .ok l ∧
      ∀ c, c ∈ l ↔
        (∃ e ∈ pTwoRoots.edges, e.start = "r1" ∧ e.end' = c) ∧
          ReadyChild pTwoRoots c :=
  orchestrator_next_characterization pTwoRoots "r1" (by decide)

/-- C5: `get_component_inputs` resolves a `"component.field"` reference
to that single field of the source's stored result and a bare
`"component"` reference to the entire stored result; the resolved value
replaces a same-named user-supplied key unconditionally (with a warning
and no error), so a parameter mapped from `P1.y` receives the `y` field
of `P1`'s stored result. -/
theorem get_component_inputs_characterization :
    ∀ (p : Pipeline) (component_name parameter mapping comp f : String)
      (d : Dict) (v : FlatValue) (input_data : InputData),
      (splitDots mapping = [comp, f] →
        alGet p.store comp = some (some d) →
        alGet d f = some v →
        ∃ r, get_component_inputs p component_name [(parameter, mapping)] input_data
              = .ok r ∧
          alGet r.inputs parameter = some (Value.flat v) ∧
          r.warned = (if alHas ((alGet input_data component_name).getD []) parameter
                      then [parameter] else []))
      ∧ ((splitDots mapping).length ≠ 2 →
        alGet p.store mapping = some (some d) →
        ∃ r, get_component_inputs p component_name [(parameter, mapping)] input_data
              = .ok r ∧
          alGet r.inputs parameter = some (Value.dict d)) := by
  intro p component_name parameter mapping comp f d v input_data
  constructor
  · intro hsplit hstore hfield
    refine ⟨⟨alInsert ((alGet input_data component_name).getD []) parameter
              (Value.flat v),
            if alHas input_data component_name then
              alInsert input_data component_name
                (alInsert ((alGet input_data component_name).getD []) parameter
                  (Value.flat v))
            else input_data,
            if alHas ((alGet input_data component_name).getD []) parameter then
              [parameter] else []⟩, ?_, ?_, ?_⟩
    · simp [get_component_inputs, get_component_inputs.go, resolveMapping,
        splitMapping, hsplit, get_results_for_component, hstore, hfield]
    · exact alGet_alInsert_self _ _ _
    · rfl
  · intro hsplit hstore
    have hsm : splitMapping mapping = (mapping, none) := by
      unfold splitMapping
      rcases hsp : splitDots mapping with _ | ⟨a, _ | ⟨b, _ | ⟨c, t⟩⟩⟩ <;>
        simp_all
    refine ⟨⟨alInsert ((alGet input_data component_name).getD []) parameter
              (Value.dict d),
            if alHas input_data component_name then
              alInsert input_data component_name
                (alInsert ((alGet input_data component_name).getD []) parameter
                  (Value.dict d))
            else input_data,
            if alHas ((alGet input_data component_name).getD []) parameter then
              [parameter] else []⟩, ?_, ?_⟩
    · simp [get_component_inputs, get_component_inputs.go, resolveMapping,
        hsm, get_results_for_component, hstore]
    · exact alGet_alInsert_self _ _ _

/-- Witness for C5: `P2` maps `x` from `P1.y`, `P1`'s stored result is
`\x7by: 5\x7d`, and `P2`'s user input already supplies `x`, which is
replaced (with a warning) by `5`. -/
theorem get_component_inputs_characterization_witness :
    ∃ r, get_component_inputs pStoreP1 "P2" [("x", "P1.y")]
          [("P2", [("x", Value.flat (FlatValue.vnat 1))])] = .ok r ∧
      alGet r.inputs "x" = some (Value.flat (FlatValue.vnat 5)) ∧
      r.warned = ["x"] :=
  (get_component_inputs_characterization pStoreP1 "P2" "x" "P1.y" "P1" "y"
      [("y", FlatValue.vnat 5)] (FlatValue.vnat 5)
      [("P2", [("x", Value.flat (FlatValue.vnat 1))])]).1
    (by decide) (by decide) (by decide)

/-- C9: `get_component_inputs` hands back the dict object stored at
`input_data[component_name]` itself, not a copy: when the run input
holds a dict for the task and the input mapping is non-empty, the
resolved values are written into that caller-owned dict, so the user's
input data is mutated in place (`r.data'` is the caller's data after
the call). -/
theorem get_component_inputs_mutates_input_data :
    ∀ (p : Pipeline) (component_name : String)
      (input_config : List (String × String)) (input_data : InputData)
      (d : InputDict) (r : ComponentInputs),
      alGet input_data component_name = some d →
      get_component_inputs p component_name input_config input_data = .ok r →
      alGet r.data' component_name = some r.inputs
      ∧ (∀ parameter mapping, input_config = [(parameter, mapping)] →
          parameter ∉ alKeys d → r.data' ≠ input_data) := by
  intro p component_name input_config input_data d r hd hok
  have hhas : alHas input_data component_name = true := by
    simp [alHas, hd]
  rcases hgo : get_component_inputs.go p
      ((alGet input_data component_name).getD []) [] input_config with e | iw
  · rw [show get_component_inputs p component_name input_config input_data =
        .error e by simp [get_component_inputs, hgo]] at hok
    cases hok
  · rw [show get_component_inputs p component_name input_config input_data =
        .ok ⟨iw.1, alInsert input_data component_name iw.1, iw.2⟩ by
      simp [get_component_inputs, hgo, hhas]] at hok
    cases hok
    constructor
    · exact alGet_alInsert_self _ _ _
    · intro parameter mapping hcfg hpar heq
      have h1 : alGet input_data component_name = some iw.1 := by
        conv_lhs => rw [← heq]
        exact alGet_alInsert_self _ _ _
      have hiw : iw.1 = d := by
        rw [hd] at h1
        exact (Option.some.inj h1).symm
      subst hcfg
      rcases hres : resolveMapping p mapping with e' | value
      · rw [show get_component_inputs.go p
            ((alGet input_data component_name).getD []) [] [(parameter, mapping)] =
            .error e' by simp [get_component_inputs.go, hres]] at hgo
        cases hgo
      · rw [show get_component_inputs.go p
            ((alGet input_data component_name).getD []) [] [(parameter, mapping)] =
            .ok (alInsert ((alGet input_data component_name).getD []) parameter value,
              if alHas ((alGet input_data component_name).getD []) parameter then
                [] ++ [parameter] else []) by
          simp [get_component_inputs.go, hres]] at hgo
        have hfst : alInsert ((alGet input_data component_name).getD []) parameter value
            = iw.1 := congrArg Prod.fst (Except.ok.inj hgo)
        rw [hd, hiw] at hfst
        have hmem := self_mem_alKeys_alInsert ((some d).getD []) parameter value
        rw [hfst] at hmem
        exact hpar hmem

/-- Witness for C9: `P2`'s user dict initially lacks `x`; after input
resolution the caller's data holds the resolved dict and differs from
the original. -/
theorem get_component_inputs_mutates_input_data_witness :
    alGet
        ((ComponentInputs.mk
          [("z", Value.flat (FlatValue.vnat 0)), ("x", Value.flat (FlatValue.vnat 5))]
          [("P2", [("z", Value.flat (FlatValue.vnat 0)),
                   ("x", Value.flat (FlatValue.vnat 5))])]
          []).data') "P2" =
      some (ComponentInputs.mk
          [("z", Value.flat (FlatValue.vnat 0)), ("x", Value.flat (FlatValue.vnat 5))]
          [("P2", [("z", Value.flat (FlatValue.vnat 0)),
                   ("x", Value.flat (FlatValue.vnat 5))])]
          []).inputs
    ∧ (ComponentInputs.mk
          [("z", Value.flat (FlatValue.vnat 0)), ("x", Value.flat (FlatValue.vnat 5))]
          [("P2", [("z", Value.flat (FlatValue.vnat 0)),
                   ("x", Value.flat (FlatValue.vnat 5))])]
          []).data' ≠ [("P2", [("z", Value.flat (FlatValue.vnat 0))])] :=
  ⟨(get_component_inputs_mutates_input_data pStoreP1 "P2" [("x", "P1.y")]
      [("P2", [("z", Value.flat (FlatValue.vnat 0))])]
      [("z", Value.flat (FlatValue.vnat 0))] _ (by decide) (by decide)).1,
   (get_component_inputs_mutates_input_data pStoreP1 "P2" [("x", "P1.y")]
      [("P2", [("z", Value.flat (FlatValue.vnat 0))])]
      [("z", Value.flat (FlatValue.vnat 0))] _ (by decide) (by decide)).2
     "x" "P1.y" rfl (by decide)⟩

/-- C10: a mapping reference with two or more dots is not an error:
both input resolution and input validation treat it like a bare
component reference — the whole string is the component name whose full
stored result is passed, and the mapped-field output check is skipped
for it. -/
theorem multi_dot_mapping_is_bare :
    ∀ mapping : String, 3 ≤ (splitDots mapping).length →
      splitMapping mapping = (mapping, none)
      ∧ (∀ (p : Pipeline) (component_name parameter : String)
          (input_data : InputData) (d : Dict),
          alGet p.store mapping = some (some d) →
          ∃ r, get_component_inputs p component_name [(parameter, mapping)] input_data
                = .ok r ∧
            alGet r.inputs parameter = some (Value.dict d))
      ∧ (∀ (p : Pipeline) (parameter : String),
          checkEdgeInputs p [(parameter, mapping)] = .ok ()) := by
  intro mapping hlen
  have hsm : splitMapping mapping = (mapping, none) := by
    unfold splitMapping
    rcases hsp : splitDots mapping with _ | ⟨a, _ | ⟨b, _ | ⟨c, t⟩⟩⟩ <;>
      simp_all
  refine ⟨hsm, ?_, ?_⟩
  · intro p component_name parameter input_data d hstore
    exact ((get_component_inputs_characterization p component_name parameter mapping
        mapping mapping d FlatValue.vnone input_data).2 (by omega) hstore)
  · intro p parameter
    simp [checkEdgeInputs, hsm]

/-- Witness for C10 at the mapping string `"a.b.c"`. -/
theorem multi_dot_mapping_is_bare_witness :
    splitMapping "a.b.c" = ("a.b.c", none)
    ∧ (∃ r, get_component_inputs pStoreDots "P2" [("x", "a.b.c")] [] = .ok r ∧
        alGet r.inputs "x" = some (Value.dict [("k", FlatValue.vnat 7)]))
    ∧ checkEdgeInputs pStoreDots [("x", "a.b.c")] = .ok () :=
  ⟨(multi_dot_mapping_is_bare "a.b.c" (by decide)).1,
   (multi_dot_mapping_is_bare "a.b.c" (by decide)).2.1 pStoreDots "P2" "x" []
     [("k", FlatValue.vnat 7)] (by decide),
   (multi_dot_mapping_is_bare "a.b.c" (by decide)).2.2 pStoreDots "x"⟩

/-- `checkEdgeInputs` succeeds iff no listed entry maps a bad field;
when all entries are well-formed its only failure is a
`PipelineDefinitionError`. -/
theorem checkEdgeInputs_characterization (p : Pipeline) :
    ∀ entries : List (String × String),
      (∀ pm ∈ entries, entryWF p pm.2 = true) →
      (checkEdgeInputs p entries = .ok () ↔ ∀ pm ∈ entries, ¬ BadEntry p pm.2)
      ∧ (checkEdgeInputs p entries ≠ .ok () →
          ∃ msg, checkEdgeInputs p entries = .error (.definition msg)) := by
  intro entries
  induction entries with
  | nil =>
      intro _
      exact ⟨by simp [checkEdgeInputs], fun h => absurd rfl h⟩
  | cons pm rest ih =>
      intro hwf
      obtain ⟨ihiff, iherr⟩ := ih (fun x hx => hwf x (List.mem_cons_of_mem _ hx))
      obtain ⟨param, path⟩ := pm
      rcases hsp : splitMapping path with ⟨src, opf⟩
      rcases opf with _ | f
      · have hstep : checkEdgeInputs p ((param, path) :: rest) =
            checkEdgeInputs p rest := by
          simp [checkEdgeInputs, hsp]
        have hnb : ¬ BadEntry p path := by
          rintro ⟨src', f', hsp', _⟩
          rw [hsp] at hsp'
          simp at hsp'
        refine ⟨?_, ?_⟩
        · rw [hstep, ihiff]
          constructor
          · intro h x hx
            rcases List.mem_cons.mp hx with h1 | h2
            · subst h1
              exact hnb
            · exact h x h2
          · intro h x hx
            exact h x (List.mem_cons_of_mem _ hx)
        · rw [hstep]
          exact iherr
      · have hs : (get_node_by_name p src).isSome = true := by
          have h := hwf (param, path) (by simp)
          simp only [entryWF, hsp] at h
          exact h
        obtain ⟨n, hn⟩ := Option.isSome_iff_exists.mp hs
        by_cases hbad : f ≠ "" ∧ f ∉ n.component.component_outputs
        · have hstep : checkEdgeInputs p ((param, path) :: rest) =
              .error (.definition
                ("Parameter " ++ f ++ " is not valid output for " ++ src)) := by
            simp [checkEdgeInputs, hsp, hn, hbad]
          have hb : BadEntry p path := ⟨src, f, hsp, hbad.1, n, hn, hbad.2⟩
          refine ⟨?_, fun _ => ⟨_, hstep⟩⟩
          rw [hstep]
          constructor
          · intro h
            cases h
          · intro h
            exact absurd hb (h (param, path) (by simp))
        · have hstep : checkEdgeInputs p ((param, path) :: rest) =
              checkEdgeInputs p rest := by
            simp [checkEdgeInputs, hsp, hn, hbad]
          have hnb : ¬ BadEntry p path := by
            rintro ⟨src', f', hsp', hf', n', hn', hout'⟩
            rw [hsp] at hsp'
            simp only [Prod.mk.injEq, Option.some.injEq] at hsp'
            obtain ⟨h1, h2⟩ := hsp'
            rw [← h1] at hn'
            rw [hn] at hn'
            cases hn'
            exact hbad ⟨h2 ▸ hf', h2 ▸ hout'⟩
          refine ⟨?_, ?_⟩
          · rw [hstep, ihiff]
            constructor
            · intro h x hx
              rcases List.mem_cons.mp hx with h1 | h2
              · subst h1
                exact hnb
              · exact h x h2
            · intro h x hx
              exact h x (List.mem_cons_of_mem _ hx)
          · rw [hstep]
            exact iherr

/-- The edge loop of `validate_inputs_config_for_task` accumulates the
mapped parameter names of every incoming edge when no entry is bad, and
fails with a `PipelineDefinitionError` when some entry is bad. -/
theorem goEdges_characterization (p : Pipeline) :
    ∀ (edges : List PipelineEdge) (actual : List String),
      (∀ e ∈ edges, ∀ pm ∈ edgeInputConfig e, entryWF p pm.2 = true) →
      ((∀ e ∈ edges, ∀ pm ∈ edgeInputConfig e, ¬ BadEntry p pm.2) →
        validate_inputs_config_for_task.goEdges p edges actual =
          .ok (actual ++ (edges.map (fun e => alKeys (edgeInputConfig e))).flatten))
      ∧ ((∃ e ∈ edges, ∃ pm ∈ edgeInputConfig e, BadEntry p pm.2) →
        ∃ msg, validate_inputs_config_for_task.goEdges p edges actual =
          .error (.definition msg)) := by
  intro edges
  induction edges with
  | nil =>
      intro actual _
      exact ⟨fun _ => by simp [validate_inputs_config_for_task.goEdges], by simp⟩
  | cons e rest ih =>
      intro actual hwf
      have hcheck := checkEdgeInputs_characterization p (edgeInputConfig e)
        (hwf e (by simp))
      constructor
      · intro hnone
        have hok : checkEdgeInputs p (edgeInputConfig e) = .ok () :=
          hcheck.1.mpr (fun pm hpm => hnone e (by simp) pm hpm)
        have hstep : validate_inputs_config_for_task.goEdges p (e :: rest) actual =
            validate_inputs_config_for_task.goEdges p rest
              (actual ++ alKeys (edgeInputConfig e)) := by
          simp [validate_inputs_config_for_task.goEdges, hok]
        rw [hstep,
          (ih (actual ++ alKeys (edgeInputConfig e))
            (fun x hx => hwf x (by simp [hx]))).1
            (fun x hx pm hpm => hnone x (by simp [hx]) pm hpm)]
        simp
      · intro hex
        by_cases hhead : ∃ pm ∈ edgeInputConfig e, BadEntry p pm.2
        · have hne : checkEdgeInputs p (edgeInputConfig e) ≠ .ok () := by
            intro hok
            obtain ⟨pm, hpm, hb⟩ := hhead
            exact absurd hb (hcheck.1.mp hok pm hpm)
          obtain ⟨msg, hmsg⟩ := hcheck.2 hne
          exact ⟨msg, by simp [validate_inputs_config_for_task.goEdges, hmsg]⟩
        · have hok : checkEdgeInputs p (edgeInputConfig e) = .ok () :=
            hcheck.1.mpr (fun pm hpm => fun hb => hhead ⟨pm, hpm, hb⟩)
          have hstep : validate_inputs_config_for_task.goEdges p (e :: rest) actual =
              validate_inputs_config_for_task.goEdges p rest
                (actual ++ alKeys (edgeInputConfig e)) := by
            simp [validate_inputs_config_for_task.goEdges, hok]
          rw [hstep]
          refine (ih (actual ++ alKeys (edgeInputConfig e))
            (fun x hx => hwf x (by simp [hx]))).2 ?_
          obtain ⟨x, hx, pm, hpm, hb⟩ := hex
          rcases List.mem_cons.mp hx with h1 | h2
          · exact absurd ⟨pm, h1 ▸ hpm, hb⟩ hhead
          · exact ⟨x, h2, pm, hpm, hb⟩

/-- Per-task validation: succeeds iff the task has no bad mapped field
on an incoming edge and no uncovered mandatory input; its only failure
mode (under entry well-formedness) is a `PipelineDefinitionError`. -/
theorem validate_for_task_characterization :
    ∀ (p : Pipeline) (taskName : String) (task : TaskPipelineNode)
      (input_data : InputData),
      taskEdgesWF p taskName = true →
      (validate_inputs_config_for_task p taskName task input_data = .ok true ↔
        ¬(HasBadEdgeEntry p taskName ∨
          MissingMandatoryInput p taskName task input_data))
      ∧ ((∃ msg, validate_inputs_config_for_task p taskName task input_data =
            .error (.definition msg)) ↔
        (HasBadEdgeEntry p taskName ∨
          MissingMandatoryInput p taskName task input_data)) := by
  intro p taskName task input_data hwf
  have hwf' : ∀ e ∈ previous_edges p taskName, ∀ pm ∈ edgeInputConfig e,
      entryWF p pm.2 = true := by
    simpa [taskEdgesWF, List.all_eq_true] using hwf
  have hgo := goEdges_characterization p (previous_edges p taskName)
    (alKeys ((alGet input_data taskName).getD [])) hwf'
  by_cases hbad : HasBadEdgeEntry p taskName
  · obtain ⟨msg, herr⟩ := hgo.2 hbad
    have hstep : validate_inputs_config_for_task p taskName task input_data =
        .error (.definition msg) := by
      simp [validate_inputs_config_for_task, herr]
    refine ⟨?_, ?_⟩
    · rw [hstep]
      constructor
      · intro h
        cases h
      · intro h
        exact absurd (Or.inl hbad) h
    · exact ⟨fun _ => Or.inl hbad, fun _ => ⟨msg, hstep⟩⟩
  · have hnone : ∀ e ∈ previous_edges p taskName, ∀ pm ∈ edgeInputConfig e,
        ¬ BadEntry p pm.2 :=
      fun e he pm hpm hb => hbad ⟨e, he, pm, hpm, hb⟩
    have hok := hgo.1 hnone
    have hcond :
        (∃ m ∈ (task.component.component_inputs.filter
            (fun pc => pc.2 = false)).map Prod.fst,
          m ∉ alKeys ((alGet input_data taskName).getD []) ++
            ((previous_edges p taskName).map
              (fun e => alKeys (edgeInputConfig e))).flatten) ↔
        MissingMandatoryInput p taskName task input_data := by
      constructor
      · rintro ⟨m, hm, hnA⟩
        refine ⟨m, hm, ?_, ?_⟩
        · intro hmem
          exact hnA (List.mem_append_left _ hmem)
        · intro e he hmem
          exact hnA (List.mem_append_right _
            (List.mem_flatten.mpr
              ⟨alKeys (edgeInputConfig e), List.mem_map.mpr ⟨e, he, rfl⟩, hmem⟩))
      · rintro ⟨m, hm, h1, h2⟩
        refine ⟨m, hm, fun hmem => ?_⟩
        rcases List.mem_append.mp hmem with h | h
        · exact h1 h
        · obtain ⟨l, hl, hml⟩ := List.mem_flatten.mp h
          obtain ⟨e, he, rfl⟩ := List.mem_map.mp hl
          exact h2 e he hml
    have hunfold : validate_inputs_config_for_task p taskName task input_data =
        if ∃ m ∈ (task.component.component_inputs.filter
            (fun pc => pc.2 = false)).map Prod.fst,
          m ∉ alKeys ((alGet input_data taskName).getD []) ++
            ((previous_edges p taskName).map
              (fun e => alKeys (edgeInputConfig e))).flatten
        then .error (.definition ("Missing input parameters for " ++ taskName))
        else .ok true := by
      simp only [validate_inputs_config_for_task, hok]
    by_cases hc : ∃ m ∈ (task.component.component_inputs.filter
        (fun pc => pc.2 = false)).map Prod.fst,
        m ∉ alKeys ((alGet input_data taskName).getD []) ++
          ((previous_edges p taskName).map
            (fun e => alKeys (edgeInputConfig e))).flatten
    · have hstep : validate_inputs_config_for_task p taskName task input_data =
          .error (.definition ("Missing input parameters for " ++ taskName)) := by
        rw [hunfold, if_pos hc]
      refine ⟨?_, ?_⟩
      · rw [hstep]
        constructor
        · intro h
          cases h
        · intro h
          exact absurd (Or.inr (hcond.mp hc)) h
      · exact ⟨fun _ => Or.inr (hcond.mp hc), fun _ => ⟨_, hstep⟩⟩
    · have hstep : validate_inputs_config_for_task p taskName task input_data =
          .ok true := by
        rw [hunfold, if_neg hc]
      refine ⟨?_, ?_⟩
      · rw [hstep]
        constructor
        · intro _
          rintro (h | h)
          · exact hbad h
          · exact hc (hcond.mpr h)
        · intro _
          rfl
      · constructor
        · rintro ⟨msg, hmsg⟩
          rw [hstep] at hmsg
          cases hmsg
        · rintro (h | h)
          · exact absurd h hbad
          · exact absurd (hcond.mpr h) hc

/-- The loop of `validate_inputs_config` over the node list. -/
theorem validate_go_characterization (p : Pipeline) (data : InputData) :
    ∀ nodesList : List (String × TaskPipelineNode),
      (∀ nt ∈ nodesList, taskEdgesWF p nt.1 = true) →
      (validate_inputs_config.go p data nodesList = .ok () ↔
        ∀ nt ∈ nodesList, ¬(HasBadEdgeEntry p nt.1 ∨
          MissingMandatoryInput p nt.1 nt.2 data))
      ∧ ((∃ msg, validate_inputs_config.go p data nodesList =
            .error (.definition msg)) ↔
        ∃ nt ∈ nodesList, (HasBadEdgeEntry p nt.1 ∨
          MissingMandatoryInput p nt.1 nt.2 data)) := by
  intro nodesList
  induction nodesList with
  | nil =>
      intro _
      refine ⟨by simp [validate_inputs_config.go], ?_⟩
      constructor
      · rintro ⟨msg, hmsg⟩
        simp [validate_inputs_config.go] at hmsg
      · rintro ⟨nt, hnt, _⟩
        cases hnt
  | cons nt rest ih =>
      intro hwf
      obtain ⟨name, task⟩ := nt
      obtain ⟨ihok, iherr⟩ := ih (fun x hx => hwf x (List.mem_cons_of_mem _ hx))
      have htask := validate_for_task_characterization p name task data
        (hwf (name, task) (by simp))
      by_cases hbadh : HasBadEdgeEntry p name ∨ MissingMandatoryInput p name task data
      · obtain ⟨msg, hmsg⟩ := htask.2.mpr hbadh
        have hstep : validate_inputs_config.go p data ((name, task) :: rest) =
            .error (.definition msg) := by
          simp [validate_inputs_config.go, hmsg]
        refine ⟨?_, ?_⟩
        · rw [hstep]
          constructor
          · intro h
            cases h
          · intro h
            exact absurd hbadh (h (name, task) (by simp))
        · exact ⟨fun _ => ⟨(name, task), by simp, hbadh⟩, fun _ => ⟨msg, hstep⟩⟩
      · have hokh : validate_inputs_config_for_task p name task data = .ok true :=
          htask.1.mpr hbadh
        have hstep : validate_inputs_config.go p data ((name, task) :: rest) =
            validate_inputs_config.go p data rest := by
          simp [validate_inputs_config.go, hokh]
        refine ⟨?_, ?_⟩
        · rw [hstep, ihok]
          constructor
          · intro h x hx
            rcases List.mem_cons.mp hx with h1 | h2
            · subst h1
              exact hbadh
            · exact h x h2
          · intro h x hx
            exact h x (List.mem_cons_of_mem _ hx)
        · rw [hstep, iherr]
          constructor
          · rintro ⟨x, hx, hb⟩
            exact ⟨x, List.mem_cons_of_mem _ hx, hb⟩
          · rintro ⟨x, hx, hb⟩
            rcases List.mem_cons.mp hx with h1 | h2
            · refine absurd ?_ hbadh
              rw [h1] at hb
              exact hb
            · exact ⟨x, h2, hb⟩

/-- C7: `validate_inputs_config(data)` raises a `DefinitionError`-kind
error iff some task has a mandatory input (no default) covered neither
by a user-supplied key nor by a parameter mapped on an incoming edge,
or some incoming edge maps a `component.field` reference whose field is
not among the source component's declared outputs; it does not raise
when every mandatory input is covered and all mapped fields are
declared (assuming every mapped source component names a node). -/
theorem validate_inputs_config_characterization :
    ∀ (p : Pipeline) (data : InputData),
      p.nodes.all (fun nt => taskEdgesWF p nt.1) = true →
      (validate_inputs_config p data = .ok () ↔
        ¬ ∃ nt ∈ p.nodes, (HasBadEdgeEntry p nt.1 ∨
          MissingMandatoryInput p nt.1 nt.2 data))
      ∧ ((∃ msg, validate_inputs_config p data = .error (.definition msg)) ↔
        ∃ nt ∈ p.nodes, (HasBadEdgeEntry p nt.1 ∨
          MissingMandatoryInput p nt.1 nt.2 data)) := by
  intro p data hwf
  have hwf' : ∀ nt ∈ p.nodes, taskEdgesWF p nt.1 = true := by
    simpa [List.all_eq_true] using hwf
  have h := validate_go_characterization p data p.nodes hwf'
  have hvc : validate_inputs_config p data =
      validate_inputs_config.go p data p.nodes := rfl
  refine ⟨?_, by rw [hvc]; exact h.2⟩
  rw [hvc, h.1]
  constructor
  · rintro hall ⟨nt, hnt, hb⟩
    exact hall nt hnt hb
  · intro hne nt hnt hb
    exact hne ⟨nt, hnt, hb⟩

/-- Witness for C7 on the concrete `P1 → P2` pipeline, whose edge maps
`P2.x` from `P1.y` with `y` a declared output of `P1`. -/
theorem validate_inputs_config_characterization_witness :
    (validate_inputs_config pVal [] = .ok () ↔
      ¬ ∃ nt ∈ pVal.nodes, (HasBadEdgeEntry pVal nt.1 ∨
        MissingMandatoryInput pVal nt.1 nt.2 []))
    ∧ ((∃ msg, validate_inputs_config pVal [] = .error (.definition msg)) ↔
      ∃ nt ∈ pVal.nodes, (HasBadEdgeEntry pVal nt.1 ∨
        MissingMandatoryInput pVal nt.1 nt.2 [])) :=
  validate_inputs_config_characterization pVal [] (by decide)

theorem mem_alKeys_alInsert {α : Type} (l : List (String × α)) (k k' : String) (v : α) :
    k' ∈ alKeys (alInsert l k v) ↔ k' = k ∨ k' ∈ alKeys l := by
  induction l with
  | nil => simp [alInsert, alKeys]
  | cons a t ih =>
      by_cases h : a.1 = k
      · cases a
        subst h
        simp [alInsert, alKeys]
      · cases a
        simp_all [alInsert, alKeys, h]
        tauto

/-- Applying a trace of task completions never changes the edge set. -/
theorem fold_on_task_complete_edges :
    ∀ (trace : List (String × RunResult)) (q : Pipeline),
      (trace.foldl (fun q c => on_task_complete q c.1 c.2) q).edges = q.edges := by
  intro trace
  induction trace with
  | nil => intro q; rfl
  | cons c rest ih =>
      intro q
      rw [List.foldl_cons, ih]
      rfl

/-- Keys present in the final-results store after applying a completion
trace: the keys already present plus the completed leaf tasks. -/
theorem fold_final_keys :
    ∀ (trace : List (String × RunResult)) (q : Pipeline) (k : String),
      k ∈ alKeys ((trace.foldl (fun q c => on_task_complete q c.1 c.2) q).final_results)
      ↔ k ∈ alKeys q.final_results ∨
          (is_leaf q k = true ∧ k ∈ trace.map Prod.fst) := by
  intro trace
  induction trace with
  | nil => simp
  | cons c rest ih =>
      intro q k
      rw [List.foldl_cons]
      have hleaf : ∀ k', is_leaf (on_task_complete q c.1 c.2) k' = is_leaf q k' :=
        fun _ => rfl
      rw [ih (on_task_complete q c.1 c.2) k]
      by_cases hl : is_leaf q c.1 = true
      · have hfin : (on_task_complete q c.1 c.2).final_results =
            alInsert q.final_results c.1 c.2.result := by
          simp [on_task_complete, hl]
        rw [hleaf k, hfin, mem_alKeys_alInsert]
        constructor
        · rintro ((rfl | h) | ⟨h1, h2⟩)
          · exact Or.inr ⟨hl, by rw [List.map_cons]; exact List.mem_cons_self _ _⟩
          · exact Or.inl h
          · exact Or.inr ⟨h1, by rw [List.map_cons]; exact List.mem_cons_of_mem _ h2⟩
        · rintro (h | ⟨h1, h2⟩)
          · exact Or.inl (Or.inr h)
          · rw [List.map_cons] at h2
            rcases List.mem_cons.mp h2 with h3 | h4
            · exact Or.inl (Or.inl h3)
            · exact Or.inr ⟨h1, h4⟩
      · have hfin : (on_task_complete q c.1 c.2).final_results =
            q.final_results := by
          simp [on_task_complete, hl]
        rw [hleaf k, hfin]
        constructor
        · rintro (h | ⟨h1, h2⟩)
          · exact Or.inl h
          · exact Or.inr ⟨h1, by rw [List.map_cons]; exact List.mem_cons_of_mem _ h2⟩
        · rintro (h | ⟨h1, h2⟩)
          · exact Or.inl h
          · rw [List.map_cons] at h2
            rcases List.mem_cons.mp h2 with h3 | h4
            · exact absurd (h3 ▸ h1) hl
            · exact Or.inr ⟨h1, h4⟩

/-- C6: `Pipeline.run(data)` propagates a validation failure untouched;
on successful validation it empties both stores, resets every status,
applies the orchestrator's completion trace, and returns a snapshot
whose keys are exactly the leaf tasks completed in this run — in
particular the snapshot of a second run cannot contain entries left
over from a previous run. -/
theorem pipeline_run_characterization :
    ∀ (p : Pipeline) (data : InputData)
      (completions : List (String × RunResult)),
      (∀ e, validate_inputs_config p data = .error e →
        Pipeline.run p data completions = .error e)
      ∧ (validate_inputs_config p data = .ok () →
        ∃ res, Pipeline.run p data completions = .ok res ∧
          ∀ k, k ∈ alKeys res ↔
            (is_leaf p k = true ∧ k ∈ completions.map Prod.fst)) := by
  intro p data completions
  constructor
  · intro e he
    simp [Pipeline.run, he]
  · intro hok
    refine ⟨(completions.foldl (fun q c => on_task_complete q c.1 c.2)
        (reinit p)).final_results, ?_, ?_⟩
    · simp [Pipeline.run, hok]
    · intro k
      have h := fold_final_keys completions (reinit p) k
      have hre : (reinit p).final_results = [] := rfl
      have hrleaf : is_leaf (reinit p) k = is_leaf p k := rfl
      rw [h, hre, hrleaf]
      simp [alKeys]

/-- Witness for C6: running `P1 → P2` with the completion trace of both
tasks returns a snapshot whose keys characterization is instantiated
concretely. -/
theorem pipeline_run_characterization_witness :
    ∃ res, Pipeline.run pVal []
        [("P1", ⟨RunStatus.DONE, some [("y", FlatValue.vnat 5)]⟩),
         ("P2", ⟨RunStatus.DONE, some []⟩)] = .ok res ∧
      ∀ k, k ∈ alKeys res ↔
        (is_leaf pVal k = true ∧
          k ∈ ([("P1", (⟨RunStatus.DONE, some [("y", FlatValue.vnat 5)]⟩ : RunResult)),
                ("P2", ⟨RunStatus.DONE, some []⟩)].map Prod.fst)) :=
  (pipeline_run_characterization pVal []
      [("P1", ⟨RunStatus.DONE, some [("y", FlatValue.vnat 5)]⟩),
       ("P2", ⟨RunStatus.DONE, some []⟩)]).2 (by decide)

/-- One atomic step of either callback preserves the race invariant
(checked over the full finite space of positions and statuses). -/
theorem raceInv0_step :
    ∀ (p1 p2 : Fin 10) (st : RunStatus) (i : Bool),
      raceInv0 p1 p2 st →
      raceInv (raceStep ⟨p1, p2, st, countOf st p1 p2⟩ i) := by
  decide

theorem raceInv_step (s : RaceState) (i : Bool) (h : raceInv s) :
    raceInv (raceStep s i) := by
  obtain ⟨h0, hc⟩ := h
  obtain ⟨pc1, pc2, st, count⟩ := s
  dsimp only at h0 hc ⊢
  have hb1 : pc1 < 10 := Nat.lt_succ_of_le h0.1
  have hb2 : pc2 < 10 := Nat.lt_succ_of_le h0.2.1
  subst hc
  exact raceInv0_step ⟨pc1, hb1⟩ ⟨pc2, hb2⟩ st i h0

theorem raceInv_exec : ∀ sched : List Bool, raceInv (raceExec sched) := by
  have h : ∀ (l : List Bool) (s : RaceState), raceInv s → raceInv (l.foldl raceStep s) := by
    intro l
    induction l with
    | nil => exact fun s hs => hs
    | cons i rest ih =>
        intro s hs
        rw [List.foldl_cons]
        exact ih _ (raceInv_step s i hs)
  intro sched
  exact h sched raceInit (by decide)

/-- C8: in the two-roots/one-consumer race, under every interleaving of
the two completion callbacks the consumer's component runs exactly once
per run (count is 1 whenever both callbacks have finished), and it can
only have run after both roots reached `DONE` (encoded as both program
counters having passed their root's final `set_status(DONE)`). -/
theorem consumer_executes_once_after_roots :
    ∀ sched : List Bool,
      ((raceExec sched).pc1 = 9 ∧ (raceExec sched).pc2 = 9 →
        (raceExec sched).count = 1)
      ∧ (1 ≤ (raceExec sched).count →
        1 ≤ (raceExec sched).pc1 ∧ 1 ≤ (raceExec sched).pc2) := by
  intro sched
  obtain ⟨h0, hc⟩ := raceInv_exec sched
  obtain ⟨hb1, hb2, hst3, hsch, hrun, hdone, hg1, hg2⟩ := h0
  constructor
  · rintro ⟨h9a, h9b⟩
    rcases hst3 with hs | hs | hs
    · exact absurd ⟨h9a, h9b⟩ (hsch hs).2.2
    · rcases hrun hs with ⟨ha, _⟩ | ⟨ha, _⟩
      · rcases ha with h | h <;> omega
      · rcases ha with h | h <;> omega
    · rw [hc, hs]
      rfl
  · intro hcount
    rcases hst3 with hs | hs | hs
    · rw [hc, hs] at hcount
      simp [countOf] at hcount
    · rw [hc, hs] at hcount
      simp only [countOf] at hcount
      by_cases h8 : (raceExec sched).pc1 = 8 ∨ (raceExec sched).pc2 = 8
      · rcases h8 with h | h
        · exact ⟨by omega, hg1 (by omega) (by omega)⟩
        · exact ⟨hg2 (by omega) (by omega), by omega⟩
      · rw [if_neg h8] at hcount
        omega
    · obtain ⟨_, _, hp1, hp2⟩ := hdone hs
      exact ⟨hp1, hp2⟩

/-- Witness for C8: the schedule where callback 1 runs first (skipping
the consumer because root 2 is not yet `DONE`) and callback 2 then
executes it. -/
theorem consumer_executes_once_after_roots_witness :
    (raceExec [true, true, true, true,
               false, false, false, false, false, false, false, false, false]).count = 1
    ∧ (1 ≤ (raceExec [true, true, true, true,
               false, false, false, false, false, false, false, false, false]).pc1
       ∧ 1 ≤ (raceExec [true, true, true, true,
               false, false, false, false, false, false, false, false, false]).pc2) :=
  ⟨(consumer_executes_once_after_roots
      [true, true, true, true,
       false, false, false, false, false, false, false, false, false]).1 (by decide),
   (consumer_executes_once_after_roots
      [true, true, true, true,
       false, false, false, false, false, false, false, false, false]).2 (by decide)⟩

end PipelineSpec
